import Mathlib

/-!
Shallow embedding of `src/fraction.rs` (crate `simplex`): a fixed-width
rational type `Fraction32` with a binary-GCD integer kernel.

Modelling conventions:
* Rust `u16` values are `Nat`, Rust `i16` values are `Int`; every spot where
  the Rust code can panic (a failed `assert!`/`unwrap`, or debug-mode
  integer overflow) checks the range explicitly and yields `RunResult.panicked`.
* `Fraction32::new` and `Fraction32::reduce` are mutually recursive in the
  source (with no decreasing measure), so they are embedded with an explicit
  fuel parameter; `RunResult.fuelOut` marks fuel exhaustion, which the source
  realises as nontermination.
* `trailing_zeros` on `u16` and the binary-GCD `while` loop are embedded with
  fuel large enough for every 16-bit input (proved below), keeping every
  definition structurally recursive and kernel-evaluable.
-/

/-- Result of running a piece of Rust code: a returned value, a panic
(failed assertion, failed `unwrap`, or debug-mode arithmetic overflow),
or fuel exhaustion (standing for nontermination of the source). -/
inductive RunResult (α : Type) where
  | out : α → RunResult α
  | panicked : RunResult α
  | fuelOut : RunResult α
deriving DecidableEq

/-- Fuel-bounded `u16::trailing_zeros`: count of factors of two.
Mirrors the Rust semantics where `trailing_zeros(0) = 16` (the bit width). -/
def tzF : Nat → Nat → Nat
  | 0, _ => 0
  | fuel + 1, n => if n = 0 then 16 else if n % 2 = 0 then tzF fuel (n / 2) + 1 else 0

/-- `u16::trailing_zeros`; fuel 16 is exact for every input below `2 ^ 16`. -/
def tz (n : Nat) : Nat := tzF 16 n

/-- The subtract-and-strip loop of `gcd` in `src/fraction.rs`:
`while a != b { if a > b { a -= b; a >>= a.trailing_zeros(); } else { ... } }`.
Fuel-bounded; `none` is fuel exhaustion. -/
def gcdLoop : Nat → Nat → Nat → Option Nat
  | 0, _, _ => none
  | fuel + 1, a, b =>
    if a = b then some a
    else if b < a then
      let a2 := a - b
      gcdLoop fuel (a2 >>> tz a2) b
    else
      let b2 := b - a
      gcdLoop fuel a (b2 >>> tz b2)

/-- Embedding of `gcd(a, b)` from `src/fraction.rs` (Stein's algorithm):
zero check returning `a | b`, shared power-of-two extraction via
`trailing_zeros(a | b)`, individual stripping of factors of two, the
subtract-and-strip loop, and the final left shift.  The loop fuel
`a1 + b1` is proved sufficient below, so `getD 0` is never taken for
16-bit inputs. -/
def gcdCode (a b : Nat) : Nat :=
  if a = 0 ∨ b = 0 then a ||| b
  else
    let shift := tz (a ||| b)
    let a1 := a >>> tz a
    let b1 := b >>> tz b
    (gcdLoop (a1 + b1) a1 b1).getD 0 <<< shift

/-- Embedding of `lcm(a, b) = a * b / gcd(a, b)` from `src/fraction.rs`.
The `u16` product overflows (debug panic) when `a * b > 65535`, and the
division panics when `gcd(a, b) = 0` (that is, when `a = b = 0`). -/
def lcmCode (a b : Nat) : RunResult Nat :=
  let g := gcdCode a b
  if 65535 < a * b then .panicked
  else if g = 0 then .panicked
  else .out (a * b / g)

/-- The `Fraction32` struct: an `i16` numerator and a `NonZeroU16`
denominator.  Range constraints are tracked by predicates, not by the type. -/
structure Fraction32 where
  numerator : Int
  denominator : Nat
deriving DecidableEq

/-- `Fraction32::whole(num)`: uses `new_unchecked(num, 1)`, so no reduction
and no panic. -/
def Fraction32.whole (n : Int) : Fraction32 := ⟨n, 1⟩

/-- `Fraction32::ZERO`. -/
def Fraction32.ZERO : Fraction32 := Fraction32.whole 0

/-- `Fraction32::ONE`. -/
def Fraction32.ONE : Fraction32 := Fraction32.whole 1

/-- `Fraction32::NEG_ONE`. -/
def Fraction32.NEG_ONE : Fraction32 := Fraction32.whole (-1)

/-- Embedding of `Fraction32::reduce`, with the call `Self::new(...)` at its
end inlined (source: `new` asserts `denominator <= 32767` and then calls
`reduce` again, so the two functions form an unbounded mutual recursion;
the fuel parameter counts the remaining `reduce` re-entries).
Panics modelled, in source order: `i16::try_from(gcd).unwrap()` when
`gcd > 32767`; the `i16` division `numerator / gcd` when `gcd = 0`;
`(denominator / gcd).try_into().unwrap()` (into `NonZeroU16`) when the
quotient is `0`; and the `assert!` inside the re-entered `new` when the new
denominator exceeds `32767`. -/
def reduceFuel : Nat → Int → Nat → RunResult Fraction32
  | 0, _, _ => .fuelOut
  | fuel + 1, n, d =>
    if n = 0 then .out Fraction32.ZERO
    else
      let g := gcdCode n.natAbs d
      if 32767 < g then .panicked
      else if g = 0 then .panicked
      else
        let n2 := n.tdiv (g : Int)
        let d2 := d / g
        if d2 = 0 then .panicked
        else if 32767 < d2 then .panicked
        else reduceFuel fuel n2 d2

/-- Embedding of `Fraction32::new(numerator, denominator)`:
`assert!(denominator.get() <= i16::MAX.unsigned_abs())` then `this.reduce()`. -/
def newCode (fuel : Nat) (n : Int) (d : Nat) : RunResult Fraction32 :=
  if 32767 < d then .panicked else reduceFuel fuel n d

/-- Embedding of `Fraction32::reciprocal`:
`i16::try_from(denominator).unwrap()` (panic above `32767`) times
`numerator.signum()`, then `numerator.unsigned_abs().try_into().ok()?`
(returns `None` exactly when the numerator is `0`), then `Self::new`. -/
def reciprocalFuel (fuel : Nat) (x : Fraction32) : RunResult (Option Fraction32) :=
  if 32767 < x.denominator then .panicked
  else
    let n2 : Int := (x.denominator : Int) * x.numerator.sign
    let d2 : Nat := x.numerator.natAbs
    if d2 = 0 then .out none
    else
      match newCode fuel n2 d2 with
      | .out r => .out (some r)
      | .panicked => .panicked
      | .fuelOut => .fuelOut

/-- Embedding of `Mul for Fraction32`: `i16` product of numerators (debug
overflow panic), `NonZeroU16::checked_mul(...).unwrap()` on denominators
(panic above `65535`), then `Self::new`. -/
def mulFuel (fuel : Nat) (x y : Fraction32) : RunResult Fraction32 :=
  let p : Int := x.numerator * y.numerator
  if p < -32768 ∨ 32767 < p then .panicked
  else
    let d := x.denominator * y.denominator
    if 65535 < d then .panicked
    else newCode fuel p d

/-- Embedding of `Add for Fraction32`: common denominator by `lcm`, scale
factors narrowed by `try_into().ok().unwrap()` (panic above `32767`), `i16`
scaled numerators and their sum (debug overflow panics),
`NonZeroU16::new(denominator).unwrap()` (panic at `0`), then `Self::new`. -/
def addFuel (fuel : Nat) (x y : Fraction32) : RunResult Fraction32 :=
  match lcmCode x.denominator y.denominator with
  | .out L =>
    let s1 := L / x.denominator
    if 32767 < s1 then .panicked
    else
      let s2 := L / y.denominator
      if 32767 < s2 then .panicked
      else
        let t1 : Int := x.numerator * (s1 : Int)
        if t1 < -32768 ∨ 32767 < t1 then .panicked
        else
          let t2 : Int := y.numerator * (s2 : Int)
          if t2 < -32768 ∨ 32767 < t2 then .panicked
          else
            let s : Int := t1 + t2
            if s < -32768 ∨ 32767 < s then .panicked
            else if L = 0 then .panicked
            else newCode fuel s L
  | .panicked => .panicked
  | .fuelOut => .fuelOut

/-- Embedding of `Sub for Fraction32`: `self.add(rhs.mul(Self::NEG_ONE))`;
the argument `rhs * NEG_ONE` is evaluated first. -/
def subFuel (fuel : Nat) (x y : Fraction32) : RunResult Fraction32 :=
  match mulFuel fuel y Fraction32.NEG_ONE with
  | .out m => addFuel fuel x m
  | .panicked => .panicked
  | .fuelOut => .fuelOut

/-- Embedding of `Div for Fraction32`: `self.mul(rhs.reciprocal().unwrap())`;
the `unwrap` of `None` (zero divisor) panics. -/
def divFuel (fuel : Nat) (x y : Fraction32) : RunResult Fraction32 :=
  match reciprocalFuel fuel y with
  | .out (some r) => mulFuel fuel x r
  | .out none => .panicked
  | .panicked => .panicked
  | .fuelOut => .fuelOut

/-- Three-way comparison on `Int`, the result of `i16::partial_cmp` (which
is total on integers). -/
def cmp3 (a b : Int) : Ordering :=
  if a < b then .lt else if a = b then .eq else .gt

/-- Three-way comparison on `ℚ`: the mathematical ordering of two exact
rational values. -/
def cmp3Q (a b : ℚ) : Ordering :=
  if a < b then .lt else if a = b then .eq else .gt

/-- Embedding of `PartialOrd for Fraction32`: `lcm` of the denominators
(its internal `u16` overflow is a panic), each scale factor narrowed by
`try_into().ok()?` (yielding `None` above `32767`), then comparison of the
`i16` scaled numerators (debug overflow panics). -/
def pcmpCode (x y : Fraction32) : RunResult (Option Ordering) :=
  match lcmCode x.denominator y.denominator with
  | .out L =>
    let s1 := L / x.denominator
    if 32767 < s1 then .out none
    else
      let s2 := L / y.denominator
      if 32767 < s2 then .out none
      else
        let t1 : Int := x.numerator * (s1 : Int)
        if t1 < -32768 ∨ 32767 < t1 then .panicked
        else
          let t2 : Int := y.numerator * (s2 : Int)
          if t2 < -32768 ∨ 32767 < t2 then .panicked
          else .out (some (cmp3 t1 t2))
  | .panicked => .panicked
  | .fuelOut => .fuelOut

/-- Embedding of `Ord for Fraction32`: `self.partial_cmp(other).unwrap()`. -/
def cmpCode (x y : Fraction32) : RunResult Ordering :=
  match pcmpCode x y with
  | .out (some o) => .out o
  | .out none => .panicked
  | .panicked => .panicked
  | .fuelOut => .fuelOut

/-- The error type `ParseFractionError` of `src/fraction.rs`; the
`ParseIntError` payload of `BadInteger` is not modelled. -/
inductive ParseFractionError where
  | badInteger
  | zeroDenominator
deriving DecidableEq

/-- Value of a decimal digit character, `none` for a non-digit. -/
def digitVal (c : Char) : Option Nat :=
  if '0' ≤ c ∧ c ≤ '9' then some (c.toNat - 48) else none

/-- Accumulating decimal evaluation of a digit string; fails on any
non-digit character. -/
def digitsVal : List Char → Nat → Option Nat
  | [], acc => some acc
  | c :: r, acc =>
    match digitVal c with
    | some v => digitsVal r (acc * 10 + v)
    | none => none

/-- Decimal value of a nonempty all-digit string. -/
def parseNatDigits (cs : List Char) : Option Nat :=
  match cs with
  | [] => none
  | _ => digitsVal cs 0

/-- Embedding of `str::parse::<u16>`: optional leading `+`, then a nonempty
digit string whose value fits in `u16`; every failure (including overflow)
is a `ParseIntError`, modelled as `none`. -/
def parseU16 (cs : List Char) : Option Nat :=
  match cs with
  | '+' :: r =>
    match parseNatDigits r with
    | some v => if v ≤ 65535 then some v else none
    | none => none
  | r =>
    match parseNatDigits r with
    | some v => if v ≤ 65535 then some v else none
    | none => none

/-- Embedding of `str::parse::<i16>`: optional leading `+` or `-`, then a
nonempty digit string whose value fits in `i16`. -/
def parseI16 (cs : List Char) : Option Int :=
  match cs with
  | '-' :: r =>
    match parseNatDigits r with
    | some v => if v ≤ 32768 then some (-(v : Int)) else none
    | none => none
  | '+' :: r =>
    match parseNatDigits r with
    | some v => if v ≤ 32767 then some (v : Int) else none
    | none => none
  | r =>
    match parseNatDigits r with
    | some v => if v ≤ 32767 then some (v : Int) else none
    | none => none

/-- Embedding of `str::split_once(c)`: split at the first occurrence of `c`,
`none` when `c` does not occur. -/
def splitOnce (c : Char) : List Char → Option (List Char × List Char)
  | [] => none
  | x :: xs =>
    if x = c then some ([], xs)
    else
      match splitOnce c xs with
      | some (p, q) => some (x :: p, q)
      | none => none

/-- Embedding of `FromStr for Fraction32`: split at the first `/`; with a
`/`, parse the `i16` numerator and `u16` denominator (failures are
`BadInteger`), reject a zero denominator (`ZeroDenominator`), and build via
`Self::new`; without a `/`, parse an `i16` and use `Self::whole`. -/
def fromStrCode (fuel : Nat) (s : List Char) :
    RunResult (Except ParseFractionError Fraction32) :=
  match splitOnce '/' s with
  | some (ns, ds) =>
    match parseI16 ns with
    | none => .out (.error .badInteger)
    | some n =>
      match parseU16 ds with
      | none => .out (.error .badInteger)
      | some d =>
        if d = 0 then .out (.error .zeroDenominator)
        else
          match newCode fuel n d with
          | .out r => .out (.ok r)
          | .panicked => .panicked
          | .fuelOut => .fuelOut
  | none =>
    match parseI16 s with
    | none => .out (.error .badInteger)
    | some n => .out (.ok (Fraction32.whole n))

/-- Decimal digit character. -/
def digitChar (n : Nat) : Char := Char.ofNat (48 + n)

/-- Fuel-bounded decimal rendering of a `Nat` (5 digits cover `u16`). -/
def natCharsAux : Nat → Nat → List Char
  | 0, _ => []
  | fuel + 1, n =>
    if n < 10 then [digitChar n]
    else natCharsAux fuel (n / 10) ++ [digitChar (n % 10)]

/-- Decimal rendering of a `u16` value. -/
def natChars (n : Nat) : List Char := natCharsAux 5 n

/-- Decimal rendering of an `i16` value, with a leading minus sign. -/
def intChars (n : Int) : List Char :=
  if n < 0 then '-' :: natChars n.natAbs else natChars n.natAbs

/-- Embedding of `Display for Fraction32`:
`write!(f, "{}/{}", numerator, denominator)`. -/
def displayCode (x : Fraction32) : List Char :=
  intChars x.numerator ++ '/' :: natChars x.denominator

/-- The `i16` range. -/
abbrev inI16 (n : Int) : Prop := -32768 ≤ n ∧ n ≤ 32767

/-- Invariant A of the spec: numerator and denominator are coprime, and a
zero numerator forces the canonical denominator `1`. -/
abbrev invA (x : Fraction32) : Prop :=
  Nat.gcd x.numerator.natAbs x.denominator = 1 ∧ (x.numerator = 0 → x.denominator = 1)

/-- Invariant B of the spec: the denominator lies in `1..=32767`. -/
abbrev invB (x : Fraction32) : Prop :=
  1 ≤ x.denominator ∧ x.denominator ≤ 32767

/-- A well-formed `Fraction32` value: representable fields plus both
spec invariants. -/
abbrev Fraction32.Wf (x : Fraction32) : Prop :=
  inI16 x.numerator ∧ invA x ∧ invB x

/-! ### Facts about `tzF`, `tz`, and bitwise or -/

lemma lor_pos_left (a b : Nat) (ha : 0 < a) : 0 < a ||| b := by
  rcases Nat.ne_zero_implies_bit_true (Nat.pos_iff_ne_zero.mp ha) with ⟨i, hi⟩
  by_contra h
  have h0 : a ||| b = 0 := by omega
  have hbit := Nat.testBit_lor a b i
  rw [h0, Nat.zero_testBit, hi] at hbit
  simp at hbit

lemma lor_lt_two_pow {a b n : Nat} (ha : a < 2 ^ n) (hb : b < 2 ^ n) : a ||| b < 2 ^ n :=
  Nat.bitwise_lt_two_pow ha hb

lemma lor_odd_iff (a b : Nat) : (a ||| b) % 2 = 1 ↔ a % 2 = 1 ∨ b % 2 = 1 := by
  have h := Nat.testBit_lor a b 0
  rw [Nat.testBit_zero, Nat.testBit_zero, Nat.testBit_zero] at h
  constructor
  · intro hp
    have hd : (decide (a % 2 = 1) || decide (b % 2 = 1)) = true := by rw [← h]; simp [hp]
    rcases (Bool.or_eq_true _ _).mp hd with h1 | h1
    · exact Or.inl (of_decide_eq_true h1)
    · exact Or.inr (of_decide_eq_true h1)
  · intro hp
    have hd : (decide (a % 2 = 1) || decide (b % 2 = 1)) = true := by
      rcases hp with h1 | h1 <;> simp [h1]
    exact of_decide_eq_true (h ▸ hd)

lemma lor_div_two (a b : Nat) : (a ||| b) / 2 = a / 2 ||| b / 2 := by
  apply Nat.eq_of_testBit_eq
  intro i
  rw [← Nat.testBit_succ, Nat.testBit_lor, Nat.testBit_lor, ← Nat.testBit_succ,
    ← Nat.testBit_succ]

lemma tzF_dvd_odd :
    ∀ fuel n, 0 < n → n < 2 ^ fuel → 2 ^ tzF fuel n ∣ n ∧ (n / 2 ^ tzF fuel n) % 2 = 1 := by
  intro fuel
  induction fuel with
  | zero => intro n h0 hlt; simp at hlt; omega
  | succ f ih =>
    intro n h0 hlt
    rcases Nat.eq_zero_or_pos (n % 2) with he | ho
    · have hn2 : 0 < n / 2 := by omega
      have hlt2 : n / 2 < 2 ^ f := by
        rw [Nat.pow_succ] at hlt
        exact (Nat.div_lt_iff_lt_mul (by omega)).mpr hlt
      obtain ⟨hdvd, hodd⟩ := ih (n / 2) hn2 hlt2
      have ht : tzF (f + 1) n = tzF f (n / 2) + 1 := by
        simp only [tzF]
        rw [if_neg (by omega), if_pos he]
      refine ⟨?_, ?_⟩
      · rw [ht, Nat.pow_succ, Nat.mul_comm (2 ^ tzF f (n / 2)) 2]
        rcases hdvd with ⟨k, hk⟩
        refine ⟨k, ?_⟩
        rw [Nat.mul_assoc, ← hk]
        omega
      · rw [ht, Nat.pow_succ, Nat.mul_comm (2 ^ tzF f (n / 2)) 2, ← Nat.div_div_eq_div_mul]
        exact hodd
    · have ht : tzF (f + 1) n = 0 := by
        simp only [tzF]
        rw [if_neg (by omega), if_neg (by omega)]
      rw [ht]
      simpa using (by omega : n % 2 = 1)

lemma tz_dvd {n : Nat} (h0 : 0 < n) (hlt : n < 65536) : 2 ^ tz n ∣ n :=
  (tzF_dvd_odd 16 n h0 (by norm_num at hlt ⊢; exact hlt)).1

lemma tz_shift_odd {n : Nat} (h0 : 0 < n) (hlt : n < 65536) : (n >>> tz n) % 2 = 1 := by
  rw [Nat.shiftRight_eq_div_pow]
  exact (tzF_dvd_odd 16 n h0 (by norm_num at hlt ⊢; exact hlt)).2

lemma tz_shift_pos {n : Nat} (h0 : 0 < n) (hlt : n < 65536) : 0 < n >>> tz n := by
  rw [Nat.shiftRight_eq_div_pow]
  exact Nat.div_pos (Nat.le_of_dvd h0 (tz_dvd h0 hlt)) (Nat.pos_pow_of_pos _ (by omega))

lemma tz_shift_le (n : Nat) : n >>> tz n ≤ n := by
  rw [Nat.shiftRight_eq_div_pow]
  exact Nat.div_le_self n _

lemma tz_eq_mul {n : Nat} (h0 : 0 < n) (hlt : n < 65536) : 2 ^ tz n * (n >>> tz n) = n := by
  rw [Nat.shiftRight_eq_div_pow]
  exact Nat.mul_div_cancel' (tz_dvd h0 hlt)

lemma tzF_lor :
    ∀ fuel a b, 0 < a → a < 2 ^ fuel → 0 < b → b < 2 ^ fuel →
      tzF fuel (a ||| b) = min (tzF fuel a) (tzF fuel b) := by
  intro fuel
  induction fuel with
  | zero => intro a b h0a hla _ _; simp at hla; omega
  | succ f ih =>
    intro a b h0a hla h0b hlb
    have hlorpos := lor_pos_left a b h0a
    have hz : ∀ m, m % 2 = 1 → tzF (f + 1) m = 0 := by
      intro m hm
      simp only [tzF]
      rw [if_neg (by omega), if_neg (by omega)]
    rcases Nat.eq_zero_or_pos (a % 2) with hea | hoa
    · rcases Nat.eq_zero_or_pos (b % 2) with heb | hob
      · have heo : (a ||| b) % 2 = 0 := by
          rcases Nat.mod_two_eq_zero_or_one (a ||| b) with h | h
          · exact h
          · rcases (lor_odd_iff a b).mp h with h1 | h1 <;> omega
        have ha2 : a / 2 < 2 ^ f := by
          rw [Nat.pow_succ] at hla
          exact (Nat.div_lt_iff_lt_mul (by omega)).mpr hla
        have hb2 : b / 2 < 2 ^ f := by
          rw [Nat.pow_succ] at hlb
          exact (Nat.div_lt_iff_lt_mul (by omega)).mpr hlb
        have hstep : ∀ m, 0 < m → m % 2 = 0 → tzF (f + 1) m = tzF f (m / 2) + 1 := by
          intro m hm hme
          simp only [tzF]
          rw [if_neg (by omega), if_pos hme]
        rw [hstep _ hlorpos heo, hstep _ h0a hea, hstep _ h0b heb, lor_div_two,
          ih (a / 2) (b / 2) (by omega) ha2 (by omega) hb2, Nat.succ_min_succ]
      · have hoo : (a ||| b) % 2 = 1 := (lor_odd_iff a b).mpr (Or.inr (by omega))
        rw [hz _ hoo, hz b (by omega)]
        simp
    · have hoo : (a ||| b) % 2 = 1 := (lor_odd_iff a b).mpr (Or.inl (by omega))
      rw [hz _ hoo, hz a (by omega)]
      simp

lemma tz_lor {a b : Nat} (h0a : 0 < a) (hla : a < 65536) (h0b : 0 < b) (hlb : b < 65536) :
    tz (a ||| b) = min (tz a) (tz b) :=
  tzF_lor 16 a b h0a (by norm_num at hla ⊢; exact hla) h0b (by norm_num at hlb ⊢; exact hlb)

/-! ### Correctness of the binary GCD -/

lemma coprime_two_pow_of_odd {b : Nat} (hb : b % 2 = 1) (k : Nat) : Nat.Coprime (2 ^ k) b :=
  Nat.Coprime.pow_left k ((Nat.Prime.coprime_iff_not_dvd Nat.prime_two).mpr (by omega))

lemma gcd_sub_left {a b : Nat} (h : b ≤ a) : Nat.gcd (a - b) b = Nat.gcd a b := by
  apply Nat.dvd_antisymm
  · exact Nat.dvd_gcd
      (by
        have h1 := Nat.gcd_dvd_left (a - b) b
        have h2 := Nat.gcd_dvd_right (a - b) b
        have := Nat.dvd_add h1 h2
        rwa [Nat.sub_add_cancel h] at this)
      (Nat.gcd_dvd_right (a - b) b)
  · exact Nat.dvd_gcd
      (Nat.dvd_sub' (Nat.gcd_dvd_left a b) (Nat.gcd_dvd_right a b))
      (Nat.gcd_dvd_right a b)

lemma gcd_strip_left {m b : Nat} (hb : b % 2 = 1) (h0 : 0 < m) (hlt : m < 65536) :
    Nat.gcd (m >>> tz m) b = Nat.gcd m b := by
  conv_rhs => rw [← tz_eq_mul h0 hlt]
  exact (Nat.Coprime.gcd_mul_left_cancel (m >>> tz m) (coprime_two_pow_of_odd hb _)).symm

lemma gcdLoop_eq :
    ∀ fuel a b, a % 2 = 1 → b % 2 = 1 → a < 65536 → b < 65536 → a + b ≤ fuel →
      gcdLoop fuel a b = some (Nat.gcd a b) := by
  intro fuel
  induction fuel with
  | zero => intro a b ha hb _ _ hf; omega
  | succ f ih =>
    intro a b ha hb ha16 hb16 hf
    by_cases hab : a = b
    · subst hab
      simp [gcdLoop, Nat.gcd_self]
    · simp only [gcdLoop]
      rw [if_neg hab]
      by_cases hlt : b < a
      · rw [if_pos hlt]
        have h2 : (a - b) % 2 = 0 := by omega
        have h0 : 0 < a - b := by omega
        have hl : a - b < 65536 := by omega
        have hodda := tz_shift_odd h0 hl
        have hpos := tz_shift_pos h0 hl
        have hle := tz_shift_le (a - b)
        have hgcd : Nat.gcd ((a - b) >>> tz (a - b)) b = Nat.gcd a b := by
          rw [gcd_strip_left hb h0 hl, gcd_sub_left (by omega)]
        rw [ih _ b hodda hb (by omega) hb16 (by omega), hgcd]
      · rw [if_neg hlt]
        have hba : a < b := by omega
        have h2 : (b - a) % 2 = 0 := by omega
        have h0 : 0 < b - a := by omega
        have hl : b - a < 65536 := by omega
        have hodd := tz_shift_odd h0 hl
        have hpos := tz_shift_pos h0 hl
        have hle := tz_shift_le (b - a)
        have hgcd : Nat.gcd a ((b - a) >>> tz (b - a)) = Nat.gcd a b := by
          rw [Nat.gcd_comm a ((b - a) >>> tz (b - a)), gcd_strip_left ha h0 hl,
            gcd_sub_left (by omega), Nat.gcd_comm]
        rw [ih a _ ha hodd ha16 (by omega) (by omega), hgcd]

lemma gcd_two_pow_aux {s t oa ob : Nat} (hst : s ≤ t) (ha : oa % 2 = 1) :
    Nat.gcd (2 ^ s * oa) (2 ^ t * ob) = 2 ^ s * Nat.gcd oa ob := by
  have ht : 2 ^ t = 2 ^ s * 2 ^ (t - s) := by
    rw [← Nat.pow_add, Nat.add_sub_cancel' hst]
  rw [ht, Nat.mul_assoc, Nat.gcd_mul_left]
  congr 1
  exact Nat.Coprime.gcd_mul_left_cancel_right ob (coprime_two_pow_of_odd ha (t - s))

lemma gcd_two_pow {s t oa ob : Nat} (ha : oa % 2 = 1) (hb : ob % 2 = 1) :
    Nat.gcd (2 ^ s * oa) (2 ^ t * ob) = 2 ^ min s t * Nat.gcd oa ob := by
  rcases Nat.le_total s t with h | h
  · rw [gcd_two_pow_aux h ha, Nat.min_eq_left h]
  · rw [Nat.gcd_comm, gcd_two_pow_aux h hb, Nat.min_eq_right h, Nat.gcd_comm]

/-- The embedded `gcd` computes the mathematical greatest common divisor on
every pair of 16-bit inputs. -/
lemma gcdCode_eq_gcd {a b : Nat} (ha : a < 65536) (hb : b < 65536) :
    gcdCode a b = Nat.gcd a b := by
  by_cases h0a : a = 0
  · subst h0a
    simp [gcdCode, Nat.zero_or, Nat.gcd_zero_left]
  by_cases h0b : b = 0
  · subst h0b
    simp [gcdCode, Nat.or_zero, Nat.gcd_zero_right]
  have hpa : 0 < a := by omega
  have hpb : 0 < b := by omega
  have ha1 := tz_shift_odd hpa ha
  have hb1 := tz_shift_odd hpb hb
  have ha1p := tz_shift_pos hpa ha
  have hb1p := tz_shift_pos hpb hb
  have ha1l : a >>> tz a < 65536 := lt_of_le_of_lt (tz_shift_le a) ha
  have hb1l : b >>> tz b < 65536 := lt_of_le_of_lt (tz_shift_le b) hb
  simp only [gcdCode]
  rw [if_neg (by omega : ¬(a = 0 ∨ b = 0))]
  rw [gcdLoop_eq _ _ _ ha1 hb1 ha1l hb1l le_rfl]
  simp only [Option.getD_some]
  rw [Nat.shiftLeft_eq, tz_lor hpa ha hpb hb]
  conv_rhs => rw [← tz_eq_mul hpa ha, ← tz_eq_mul hpb hb]
  rw [gcd_two_pow ha1 hb1]
  ring

/-! ### Nontermination of `new`/`reduce` on every nonzero numerator -/

/-- `reduce` on a nonzero numerator reconstructs through `new`, which calls
`reduce` again; no base case is ever reached, so every fuel runs out. -/
lemma reduceFuel_fuelOut :
    ∀ fuel (n : Int) (d : Nat), n ≠ 0 → inI16 n → 0 < d → d ≤ 32767 →
      reduceFuel fuel n d = .fuelOut := by
  intro fuel
  induction fuel with
  | zero => intro n d _ _ _ _; rfl
  | succ f ih =>
    intro n d hn hi hd0 hd
    have hna : 0 < n.natAbs := Int.natAbs_pos.mpr hn
    have hna16 : n.natAbs < 65536 := by
      rcases hi with ⟨h1, h2⟩
      omega
    have hgeq : gcdCode n.natAbs d = Nat.gcd n.natAbs d := gcdCode_eq_gcd hna16 (by omega)
    have hg0 : 0 < Nat.gcd n.natAbs d := Nat.gcd_pos_of_pos_left d hna
    have hgled : Nat.gcd n.natAbs d ≤ d := Nat.le_of_dvd hd0 (Nat.gcd_dvd_right _ _)
    have hd2 : 0 < d / Nat.gcd n.natAbs d := Nat.div_pos hgled hg0
    have hd2le : d / Nat.gcd n.natAbs d ≤ 32767 := le_trans (Nat.div_le_self _ _) hd
    have hdvdn : ((Nat.gcd n.natAbs d : Int)) ∣ n :=
      dvd_trans (Int.natCast_dvd_natCast.mpr (Nat.gcd_dvd_left _ _))
        (Int.natAbs_dvd.mpr dvd_rfl)
    rcases hdvdn with ⟨k, hk⟩
    have hgz : (Nat.gcd n.natAbs d : Int) ≠ 0 := by
      exact_mod_cast Nat.pos_iff_ne_zero.mp hg0
    have htdiv : n.tdiv (Nat.gcd n.natAbs d : Int) = k := by
      nth_rewrite 1 [hk]
      exact Int.mul_tdiv_cancel_left k hgz
    have hk0 : k ≠ 0 := by
      intro h
      rw [h, mul_zero] at hk
      exact hn hk
    have hg1 : (1 : Int) ≤ (Nat.gcd n.natAbs d : Int) := by exact_mod_cast hg0
    have hki : inI16 k := by
      rcases le_or_lt 0 k with hkpos | hkneg
      · have h1 : k ≤ (Nat.gcd n.natAbs d : Int) * k := le_mul_of_one_le_left hkpos hg1
        rcases hi with ⟨hl, hr⟩
        constructor <;> omega
      · have h1 : (Nat.gcd n.natAbs d : Int) * k ≤ 1 * k :=
          mul_le_mul_of_nonpos_right hg1 (le_of_lt hkneg)
        rw [one_mul] at h1
        rcases hi with ⟨hl, hr⟩
        constructor <;> omega
    simp only [reduceFuel]
    rw [if_neg hn, hgeq]
    rw [if_neg (by omega), if_neg (by omega), if_neg (by omega), if_neg (by omega), htdiv]
    exact ih k _ hk0 hki hd2 hd2le

/-- `new` on a nonzero numerator and in-range denominator never returns. -/
lemma newCode_fuelOut (fuel : Nat) (n : Int) (d : Nat) (hn : n ≠ 0) (hi : inI16 n)
    (hd0 : 0 < d) (hd : d ≤ 32767) : newCode fuel n d = .fuelOut := by
  unfold newCode
  rw [if_neg (by omega)]
  exact reduceFuel_fuelOut fuel n d hn hi hd0 hd

/-! ### Parsing lemmas -/

lemma digitsVal_slash : ∀ cs : List Char, '/' ∈ cs → ∀ acc, digitsVal cs acc = none := by
  intro cs
  induction cs with
  | nil => intro h; simp at h
  | cons c r ih =>
    intro h acc
    rcases List.mem_cons.mp h with h1 | h1
    · rw [← h1]
      simp only [digitsVal]
      rw [show digitVal '/' = none from by decide]
    · simp only [digitsVal]
      cases hd : digitVal c with
      | none => rfl
      | some v => exact ih h1 _

lemma parseNatDigits_slash {cs : List Char} (h : '/' ∈ cs) : parseNatDigits cs = none := by
  cases cs with
  | nil => simp at h
  | cons c r =>
    simp only [parseNatDigits]
    exact digitsVal_slash (c :: r) h 0

lemma parseU16_slash {cs : List Char} (h : '/' ∈ cs) : parseU16 cs = none := by
  unfold parseU16
  split
  · rename_i r
    have hr : '/' ∈ r := by
      rcases List.mem_cons.mp h with h1 | h1
      · simp at h1
      · exact h1
    rw [parseNatDigits_slash hr]
  · rw [parseNatDigits_slash h]

lemma splitOnce_of_two (c : Char) :
    ∀ s : List Char, 2 ≤ s.count c → ∃ p q, splitOnce c s = some (p, q) ∧ c ∈ q := by
  intro s
  induction s with
  | nil => intro h; simp [List.count_nil] at h
  | cons x xs ih =>
    intro h
    by_cases hx : x = c
    · refine ⟨[], xs, by simp [splitOnce, hx], ?_⟩
      apply List.count_pos_iff.mp
      rw [List.count_cons, if_pos (beq_iff_eq.mpr hx)] at h
      omega
    · have h2 : 2 ≤ xs.count c := by
        rw [List.count_cons, if_neg (by simpa using hx)] at h
        omega
      obtain ⟨p, q, hs, hq⟩ := ih h2
      exact ⟨x :: p, q, by simp [splitOnce, hx, hs], hq⟩

/-! ### Lemmas about `lcm` and the comparison path -/

lemma lcmCode_out {a b : Nat} (ha : a < 65536) (hb : b < 65536) (hab : a * b ≤ 65535)
    (hg : Nat.gcd a b ≠ 0) : lcmCode a b = .out (a * b / Nat.gcd a b) := by
  simp only [lcmCode]
  rw [gcdCode_eq_gcd ha hb, if_neg (by omega), if_neg hg]

lemma cmp3_mul_right {a b c : Int} (hc : 0 < c) : cmp3 (a * c) (b * c) = cmp3 a b := by
  unfold cmp3
  rcases lt_trichotomy a b with h | h | h
  · rw [if_pos ((mul_lt_mul_right hc).mpr h), if_pos h]
  · subst h
    simp
  · have h1 : ¬a * c < b * c := not_lt.mpr (le_of_lt ((mul_lt_mul_right hc).mpr h))
    have h2 : ¬a * c = b * c := fun he => ne_of_gt h (mul_right_cancel₀ (ne_of_gt hc) he)
    rw [if_neg h1, if_neg h2, if_neg (not_lt.mpr (le_of_lt h)), if_neg (ne_of_gt h)]

lemma cmp3_cross_ratio {n1 n2 : Int} {d1 d2 : Nat} (h1 : 0 < d1) (h2 : 0 < d2) :
    cmp3 (n1 * (d2 : Int)) (n2 * (d1 : Int)) =
      cmp3Q ((n1 : ℚ) / (d1 : ℚ)) ((n2 : ℚ) / (d2 : ℚ)) := by
  unfold cmp3 cmp3Q
  have hd1 : (0 : ℚ) < (d1 : ℚ) := by exact_mod_cast h1
  have hd2 : (0 : ℚ) < (d2 : ℚ) := by exact_mod_cast h2
  have hlt : n1 * (d2 : Int) < n2 * (d1 : Int) ↔ (n1 : ℚ) / (d1 : ℚ) < (n2 : ℚ) / (d2 : ℚ) := by
    rw [div_lt_div_iff₀ hd1 hd2]
    constructor <;> intro h <;> exact_mod_cast h
  have heq : n1 * (d2 : Int) = n2 * (d1 : Int) ↔ (n1 : ℚ) / (d1 : ℚ) = (n2 : ℚ) / (d2 : ℚ) := by
    rw [div_eq_div_iff (ne_of_gt hd1) (ne_of_gt hd2)]
    constructor <;> intro h <;> exact_mod_cast h
  rw [if_congr hlt rfl (if_congr heq rfl rfl)]

/-- For well-formed fractions whose denominator product fits `u16` and whose
scaled numerators fit `i16`, `partial_cmp` returns the mathematical ordering
of the two exact rational values. -/
lemma pcmp_correct {x y : Fraction32} (hx : x.Wf) (hy : y.Wf)
    (hd : x.denominator * y.denominator ≤ 65535)
    (h1 : inI16 (x.numerator *
      ((y.denominator / Nat.gcd x.denominator y.denominator : Nat) : Int)))
    (h2 : inI16 (y.numerator *
      ((x.denominator / Nat.gcd x.denominator y.denominator : Nat) : Int))) :
    pcmpCode x y = .out (some (cmp3Q ((x.numerator : ℚ) / (x.denominator : ℚ))
      ((y.numerator : ℚ) / (y.denominator : ℚ)))) := by
  obtain ⟨hxi, hxa, hxb1, hxb2⟩ := hx
  obtain ⟨hyi, hya, hyb1, hyb2⟩ := hy
  have hg : 0 < Nat.gcd x.denominator y.denominator :=
    Nat.gcd_pos_of_pos_left _ (by omega)
  have hlcm : lcmCode x.denominator y.denominator =
      .out (x.denominator * y.denominator / Nat.gcd x.denominator y.denominator) :=
    lcmCode_out (by omega) (by omega) hd (by omega)
  have hs1 : x.denominator * y.denominator / Nat.gcd x.denominator y.denominator /
      x.denominator = y.denominator / Nat.gcd x.denominator y.denominator := by
    rw [Nat.mul_div_assoc x.denominator (Nat.gcd_dvd_right x.denominator y.denominator),
      Nat.mul_div_cancel_left _ (by omega : 0 < x.denominator)]
  have hs2 : x.denominator * y.denominator / Nat.gcd x.denominator y.denominator /
      y.denominator = x.denominator / Nat.gcd x.denominator y.denominator := by
    rw [Nat.mul_comm x.denominator y.denominator,
      Nat.mul_div_assoc y.denominator (Nat.gcd_dvd_left x.denominator y.denominator),
      Nat.mul_div_cancel_left _ (by omega : 0 < y.denominator)]
  have hb1 : y.denominator / Nat.gcd x.denominator y.denominator ≤ 32767 :=
    le_trans (Nat.div_le_self _ _) hyb2
  have hb2 : x.denominator / Nat.gcd x.denominator y.denominator ≤ 32767 :=
    le_trans (Nat.div_le_self _ _) hxb2
  unfold pcmpCode
  rw [hlcm]
  simp only [hs1, hs2]
  rw [if_neg (by omega), if_neg (by omega),
    if_neg (by rcases h1 with ⟨ha, hb⟩; omega), if_neg (by rcases h2 with ⟨ha, hb⟩; omega)]
  have hgz : (0 : Int) < (Nat.gcd x.denominator y.denominator : Int) := by exact_mod_cast hg
  have e1 : x.numerator * ((y.denominator / Nat.gcd x.denominator y.denominator : Nat) : Int) *
      (Nat.gcd x.denominator y.denominator : Int) = x.numerator * (y.denominator : Int) := by
    rw [mul_assoc, ← Int.natCast_mul,
      Nat.div_mul_cancel (Nat.gcd_dvd_right x.denominator y.denominator)]
  have e2 : y.numerator * ((x.denominator / Nat.gcd x.denominator y.denominator : Nat) : Int) *
      (Nat.gcd x.denominator y.denominator : Int) = y.numerator * (x.denominator : Int) := by
    rw [mul_assoc, ← Int.natCast_mul,
      Nat.div_mul_cancel (Nat.gcd_dvd_left x.denominator y.denominator)]
  rw [← cmp3_mul_right hgz, e1, e2, cmp3_cross_ratio (by omega) (by omega)]

/-! ### The claims -/

/-- C1: the claim says every public constructor and arithmetic operation
returns a value satisfying invariants A and B.  The code violates the
implicit guarantee that these operations return at all: `new(1, 2)` (any
nonzero numerator) recurses `new → reduce → new → ...` without a base case
and never returns, at every fuel. -/
theorem c1_new_never_returns : ∀ fuel : Nat, newCode fuel 1 2 = RunResult.fuelOut :=
  fun fuel => newCode_fuelOut fuel 1 2 (by decide) (by decide) (by decide) (by decide)

/-- C2: the claim says `reciprocal` of a valid fraction with nonzero
numerator returns `Some` of the inverted fraction.  In the code the final
`Self::new` call never returns: `reciprocal(1/2)` exhausts every fuel
instead of returning `Some(2/1)`. -/
theorem c2_reciprocal_diverges :
    ∀ fuel : Nat, reciprocalFuel fuel ⟨1, 2⟩ = RunResult.fuelOut := by
  intro fuel
  have h : reduceFuel fuel 2 1 = .fuelOut :=
    reduceFuel_fuelOut fuel 2 1 (by decide) (by decide) (by decide) (by decide)
  have e : reciprocalFuel fuel ⟨1, 2⟩ =
      (match reduceFuel fuel 2 1 with
        | .out r => RunResult.out (some r)
        | .panicked => .panicked
        | .fuelOut => .fuelOut) := rfl
  rw [e, h]

/-- C3: the claim says `x - x == ZERO` for every valid `x`.  For
`x = 1/2` the subtraction `x + (x * -1)` diverges inside the
multiplication's call to `new` (nonzero numerator `-1`), at every fuel, so
no `ZERO` is ever produced. -/
theorem c3_sub_self_diverges :
    ∀ fuel : Nat, subFuel fuel ⟨1, 2⟩ ⟨1, 2⟩ = RunResult.fuelOut := by
  intro fuel
  have h : reduceFuel fuel (-1) 2 = .fuelOut :=
    reduceFuel_fuelOut fuel (-1) 2 (by decide) (by decide) (by decide) (by decide)
  have e : subFuel fuel ⟨1, 2⟩ ⟨1, 2⟩ =
      (match reduceFuel fuel (-1) 2 with
        | .out m => addFuel fuel ⟨1, 2⟩ m
        | .panicked => RunResult.panicked
        | .fuelOut => .fuelOut) := rfl
  rw [e, h]

/-- C4: the claim says `x * reciprocal(x) == ONE` for valid nonzero `x`.
For `x = 2/3` already `reciprocal(x)` diverges inside `new` (numerator `3`),
at every fuel, so the product with `ONE` as result is never reached. -/
theorem c4_mul_reciprocal_diverges :
    ∀ fuel : Nat, reciprocalFuel fuel ⟨2, 3⟩ = RunResult.fuelOut := by
  intro fuel
  have h : reduceFuel fuel 3 2 = .fuelOut :=
    reduceFuel_fuelOut fuel 3 2 (by decide) (by decide) (by decide) (by decide)
  have e : reciprocalFuel fuel ⟨2, 3⟩ =
      (match reduceFuel fuel 3 2 with
        | .out r => RunResult.out (some r)
        | .panicked => .panicked
        | .fuelOut => .fuelOut) := rfl
  rw [e, h]

/-- C5, counterexample: `1/3` and `1/21846` are both well formed and their
true scale factors (`7282` and `1`) are representable in `i16`, so the claim
demands the mathematical ordering; the code instead panics, because
`lcm(3, 21846)` overflows the `u16` product (`65538 > 65535`). -/
theorem c5_cmp_panics_counterexample :
    pcmpCode ⟨1, 3⟩ ⟨1, 21846⟩ = RunResult.panicked := by decide

/-- C5, amended: comparison scales both numerators to the LCM of the
denominators; for well-formed fractions, when the `u16` denominator product
and the scaled `i16` numerators stay in range (overflow of either panics
rather than yielding `None`), the result is exactly the mathematical
ordering of the two rational values; in particular `1/2 < 2/3` and
`-1/2 < ZERO`. -/
theorem c5_cmp_amended :
    (∀ x y : Fraction32, x.Wf → y.Wf →
      x.denominator * y.denominator ≤ 65535 →
      inI16 (x.numerator *
        ((y.denominator / Nat.gcd x.denominator y.denominator : Nat) : Int)) →
      inI16 (y.numerator *
        ((x.denominator / Nat.gcd x.denominator y.denominator : Nat) : Int)) →
      pcmpCode x y = .out (some (cmp3Q ((x.numerator : ℚ) / (x.denominator : ℚ))
        ((y.numerator : ℚ) / (y.denominator : ℚ)))))
    ∧ pcmpCode ⟨1, 2⟩ ⟨2, 3⟩ = .out (some .lt)
    ∧ pcmpCode ⟨-1, 2⟩ Fraction32.ZERO = .out (some .lt) := by
  refine ⟨?_, by decide, by decide⟩
  intro x y hx hy hd h1 h2
  exact pcmp_correct hx hy hd h1 h2

/-- C5, witness: the amended theorem applied to `1/2` and `2/3`. -/
theorem c5_cmp_witness :
    pcmpCode ⟨1, 2⟩ ⟨2, 3⟩ = .out (some (cmp3Q (((1 : Int) : ℚ) / ((2 : Nat) : ℚ))
      (((2 : Int) : ℚ) / ((3 : Nat) : ℚ)))) :=
  c5_cmp_amended.1 ⟨1, 2⟩ ⟨2, 3⟩ (by decide) (by decide) (by decide) (by decide) (by decide)

/-- C6: the claim says `parse(display(x)) == x` for every representable
`x`.  For `x = 1/2`, `display` yields `"1/2"` and parsing it reaches
`Self::new(1, 2)`, which never returns, at every fuel. -/
theorem c6_roundtrip_diverges :
    ∀ fuel : Nat, fromStrCode fuel (displayCode ⟨1, 2⟩) = RunResult.fuelOut := by
  intro fuel
  have h : reduceFuel fuel 1 2 = .fuelOut :=
    reduceFuel_fuelOut fuel 1 2 (by decide) (by decide) (by decide) (by decide)
  have e : fromStrCode fuel (displayCode ⟨1, 2⟩) =
      (match reduceFuel fuel 1 2 with
        | .out r => RunResult.out (.ok r)
        | .panicked => .panicked
        | .fuelOut => .fuelOut) := rfl
  rw [e, h]

/-- C7: on all 16-bit inputs the embedded binary GCD equals the
mathematical greatest common divisor; consequently it is symmetric,
`gcd(a, 0) = a`, and `gcd(0, 0) = 0`. -/
theorem c7_gcd_correct (a b : Nat) (ha : a < 65536) (hb : b < 65536) :
    gcdCode a b = Nat.gcd a b ∧ gcdCode a b = gcdCode b a ∧
      gcdCode a 0 = a ∧ gcdCode 0 0 = 0 := by
  refine ⟨gcdCode_eq_gcd ha hb, ?_, ?_, by decide⟩
  · rw [gcdCode_eq_gcd ha hb, gcdCode_eq_gcd hb ha, Nat.gcd_comm]
  · simp [gcdCode, Nat.or_zero]

/-- C7, witness: the theorem applied at `12` and `18`. -/
theorem c7_gcd_witness :
    gcdCode 12 18 = Nat.gcd 12 18 ∧ gcdCode 12 18 = gcdCode 18 12 ∧
      gcdCode 12 0 = 12 ∧ gcdCode 0 0 = 0 :=
  c7_gcd_correct 12 18 (by decide) (by decide)

/-- C8: after the zero check and the stripping of factors of two, the
subtract-and-strip loop terminates on every pair of odd positive 16-bit
operands — fuel `a + b` always suffices — and each iteration strictly
decreases the larger operand. -/
theorem c8_gcd_loop_terminates (a b fuel : Nat) (ha : a % 2 = 1) (hb : b % 2 = 1)
    (ha16 : a < 65536) (hb16 : b < 65536) (hfuel : a + b ≤ fuel) (hlt : b < a) :
    (gcdLoop fuel a b).isSome = true ∧ max ((a - b) >>> tz (a - b)) b < max a b := by
  constructor
  · rw [gcdLoop_eq fuel a b ha hb ha16 hb16 hfuel]
    rfl
  · have h0 : 0 < a - b := by omega
    have hle := tz_shift_le (a - b)
    omega

/-- C8, witness: the theorem applied at `a = 5`, `b = 3`, fuel `8`. -/
theorem c8_gcd_loop_witness :
    (gcdLoop 8 5 3).isSome = true ∧ max ((5 - 3) >>> tz (5 - 3)) 3 < max 5 3 :=
  c8_gcd_loop_terminates 5 3 8 (by decide) (by decide) (by decide) (by decide)
    (by decide) (by decide)

/-- C9, counterexample: `a = b = 0` has product `0`, which fits the working
width, yet `lcm(0, 0)` divides by `gcd(0, 0) = 0` and panics instead of
being defined. -/
theorem c9_lcm_zero_counterexample : lcmCode 0 0 = RunResult.panicked := by decide

/-- C9, amended: for 16-bit inputs, not both zero, whose product fits the
16-bit working width, `lcm` is defined and `lcm(a, b) * gcd(a, b) = a * b`
exactly. -/
theorem c9_lcm_amended (a b : Nat) (ha : a < 65536) (hb : b < 65536)
    (hab : a * b ≤ 65535) (hz : ¬(a = 0 ∧ b = 0)) :
    ∃ l, lcmCode a b = RunResult.out l ∧ l * gcdCode a b = a * b := by
  have hg : Nat.gcd a b ≠ 0 := by
    rcases Nat.eq_zero_or_pos a with h | h
    · subst h
      simp only [Nat.gcd_zero_left]
      intro hb0
      exact hz ⟨rfl, hb0⟩
    · exact Nat.pos_iff_ne_zero.mp (Nat.gcd_pos_of_pos_left b h)
  refine ⟨a * b / Nat.gcd a b, lcmCode_out ha hb hab hg, ?_⟩
  rw [gcdCode_eq_gcd ha hb]
  exact Nat.div_mul_cancel ((Nat.gcd_dvd_left a b).mul_right b)

/-- C9, witness: the amended theorem applied at `4` and `6`. -/
theorem c9_lcm_witness : ∃ l, lcmCode 4 6 = RunResult.out l ∧ l * gcdCode 4 6 = 4 * 6 :=
  c9_lcm_amended 4 6 (by decide) (by decide) (by decide) (by decide)

/-- C10: an input with two or more `/` characters always fails to parse
with the `BadInteger` error kind (the text after the first `/` still
contains a `/`, so the denominator token is rejected; a malformed numerator
token yields the same kind), and construction is never reached. -/
theorem c10_double_slash_bad_integer (fuel : Nat) (s : List Char)
    (h : 2 ≤ s.count '/') :
    fromStrCode fuel s = RunResult.out (Except.error ParseFractionError.badInteger) := by
  obtain ⟨p, q, hs, hq⟩ := splitOnce_of_two '/' s h
  have e : fromStrCode fuel s =
      (match parseI16 p with
       | none => RunResult.out (.error .badInteger)
       | some n =>
         match parseU16 q with
         | none => RunResult.out (.error .badInteger)
         | some d =>
           if d = 0 then RunResult.out (.error .zeroDenominator)
           else
             match newCode fuel n d with
             | .out r => RunResult.out (.ok r)
             | .panicked => .panicked
             | .fuelOut => .fuelOut) := by
    unfold fromStrCode
    rw [hs]
  rw [e]
  cases hp : parseI16 p with
  | none => rfl
  | some n =>
    rw [parseU16_slash hq]

/-- C10, witness: the theorem applied to the concrete input `"1/2/3"`. -/
theorem c10_double_slash_witness :
    fromStrCode 0 ['1', '/', '2', '/', '3'] =
      RunResult.out (Except.error ParseFractionError.badInteger) :=
  c10_double_slash_bad_integer 0 ['1', '/', '2', '/', '3'] (by decide)
